import Mathlib

/-!
# Verification of the FilterObjects filtering and relabeling engine

Shallow embedding of the algorithmic core of
`pyCellProfiler/cellprofiler/modules/filterobjects.py` (class `FilterObjects`):
the four selection strategies (`keep_one`, `keep_per_object`,
`keep_within_limits`, `keep_by_rules`) and the relabeling pass of `run`
(building the remap table `label_indexes` and applying it to the primary and
linked label rasters).

Rasters are modelled as flat lists of pixel values (row-major order), float64
measurement values as rationals, and float64 score values as rationals extended
with NaN and the two infinities (only comparisons and replacement are performed
on scores, never arithmetic, so this is exact).  numpy fancy indexing is
modelled with its Python semantics: negative indices wrap around, and an
out-of-range index is an `IndexError`, rendered as `none`.  The code targets
the numpy of its era, in which a boolean mask used as an index is converted to
the integer indices of its `True` entries, so a mask shorter than the indexed
array is legal and touches only the corresponding prefix positions.
-/

/-- A float64 value as it appears in a rule-score matrix: a finite value
(modelled exactly as a rational), NaN, or an infinity. -/
inductive FloatVal where
  | nan : FloatVal
  | ninf : FloatVal
  | pinf : FloatVal
  | val : ℚ → FloatVal
deriving DecidableEq, Repr, Inhabited

/-- IEEE-754 strict greater-than on float values: every comparison against
NaN is false; `-inf` is below and `+inf` above every finite value. -/
def FloatVal.gtF : FloatVal → FloatVal → Bool
  | .nan, _ => false
  | _, .nan => false
  | .pinf, .pinf => false
  | .pinf, _ => true
  | .ninf, _ => false
  | .val _, .pinf => false
  | .val _, .ninf => true
  | .val q, .val r => decide (r < q)

/-- `np.isnan` on a single value. -/
def FloatVal.isNaN : FloatVal → Bool
  | .nan => true
  | _ => false

/-- `np.argwhere(hits)[:,0] + 1`, with `k` entries of the boolean vector
already consumed: the 1-based positions of the `True` entries, ascending. -/
def hitsToIndexesFrom : Nat → List Bool → List Nat
  | _, [] => []
  | k, b :: rest =>
      if b then (k + 1) :: hitsToIndexesFrom (k + 1) rest
      else hitsToIndexesFrom (k + 1) rest

/-- `np.argwhere(hits)[:,0] + 1` over the whole boolean vector. -/
def hitsToIndexes (hits : List Bool) : List Nat :=
  hitsToIndexesFrom 0 hits

/-- One criterion group of the Limits filter (`FilterObjects.measurements`
group): the measurement vector fetched for this criterion, and the optional
minimum / maximum limits with their activation flags. -/
structure Criterion where
  values : List ℚ
  wantsMinimum : Bool
  minLimit : ℚ
  wantsMaximum : Bool
  maxLimit : ℚ
deriving DecidableEq, Repr

/-- `hits[mask] = False` for a boolean `mask`: under the era's numpy
semantics the mask is converted to the indices of its `True` entries, so a
mask shorter than `hits` clears only positions inside the mask's length. -/
def applyMask : List Bool → List Bool → List Bool
  | [], _ => []
  | hs, [] => hs
  | b :: hs, m :: ms => (if m then false else b) :: applyMask hs ms

/-- The growth step `temp = np.ones(len(values), bool); temp[~hits] = False`
taken when a later measurement vector is longer than the current `hits`:
old entries are kept, new trailing entries start out `True`. -/
def extendHits (hits : List Bool) (n : Nat) : List Bool :=
  if hits.length < n then hits ++ List.replicate (n - hits.length) true else hits

/-- One iteration of the criterion loop of `FilterObjects.keep_within_limits`:
initialise or grow `hits` to the current vector's length, then clear the
entries failing the active minimum and maximum limits. -/
def stepGroup (hits : Option (List Bool)) (g : Criterion) : Option (List Bool) :=
  let h0 := match hits with
    | none => List.replicate g.values.length true
    | some h => extendHits h g.values.length
  let h1 := if g.wantsMinimum then
      applyMask h0 (g.values.map fun v => decide (v < g.minLimit)) else h0
  let h2 := if g.wantsMaximum then
      applyMask h1 (g.values.map fun v => decide (g.maxLimit < v)) else h1
  some h2

/-- `FilterObjects.keep_within_limits`: fold the criterion groups over the
`hits` accumulator and return the 1-based indices of the surviving entries.
(The module always has at least one criterion group; on an empty group list
the Python code would fail on `argwhere(None)`, rendered here as `[]`.) -/
def keepWithinLimits (groups : List Criterion) : List Nat :=
  match groups.foldl stepGroup none with
  | none => []
  | some hits => hitsToIndexes hits

/-- The NaN coercion of `FilterObjects.keep_by_rules`:
`scores[np.isnan(scores[:,0]),0] = -np.Infinity` and
`scores[np.isnan(scores[:,1]),1] = np.Infinity`, row-wise. -/
def coerceScores (s : FloatVal × FloatVal) : FloatVal × FloatVal :=
  ((if s.1.isNaN then FloatVal.ninf else s.1),
   (if s.2.isNaN then FloatVal.pinf else s.2))

/-- `FilterObjects.keep_by_rules` after scoring: coerce NaNs, keep the rows
whose positive score strictly exceeds the negative score, and return their
1-based indices. -/
def keepByRules (scores : List (FloatVal × FloatVal)) : List Nat :=
  hitsToIndexes
    (scores.map fun s => FloatVal.gtF (coerceScores s).1 (coerceScores s).2)

/-- Strict "is a better extremum" comparison used by the extremum scans:
strictly greater for a maximum search, strictly smaller for a minimum
search. -/
def betterThan (wantsMax : Bool) (a b : ℚ) : Bool :=
  if wantsMax then decide (b < a) else decide (a < b)

/-- `np.argmax` / `np.argmin` together with the extreme value: the 0-based
index of the first entry attaining the extremum (numpy returns the first
occurrence), or `none` on an empty vector. -/
def argBestVal (wantsMax : Bool) : List ℚ → Option (Nat × ℚ)
  | [] => none
  | v :: rest =>
      match argBestVal wantsMax rest with
      | none => some (0, v)
      | some q => if betterThan wantsMax q.2 v then some (q.1 + 1, q.2) else some (0, v)

/-- `FilterObjects.keep_one`: empty measurement vector gives no survivor,
otherwise the single 1-based index of the first extreme entry. -/
def keepOne (wantsMax : Bool) (values : List ℚ) : List Nat :=
  match argBestVal wantsMax values with
  | none => []
  | some q => [q.1 + 1]

/-- The per-pixel value raster of `FilterObjects.keep_per_object`:
`tricky_values[src_labels]`, where `tricky_values[0]` is the sentinel
(`-inf` for a maximum search, `+inf` for a minimum search) and
`tricky_values[k] = values[k-1]` for `k ≥ 1`; a label beyond the measurement
vector is a numpy `IndexError` (`none`). -/
def trickyLookup (wantsMax : Bool) (values : List ℚ) (lab : Nat) : Option FloatVal :=
  if lab = 0 then some (if wantsMax then FloatVal.ninf else FloatVal.pinf)
  else if h : lab - 1 < values.length then some (FloatVal.val (values.get ⟨lab - 1, h⟩))
  else none

/-- Pixels of the child/enclosing rasters in scan order: position, enclosing
label at that position, per-pixel value at that position. -/
def labeledPixels : Nat → List Nat → List FloatVal → List (Nat × Nat × FloatVal)
  | _, [], _ => []
  | _, _ :: _, [] => []
  | k, e :: es, v :: vs => (k, e, v) :: labeledPixels (k + 1) es vs

/-- Strict "is a better extremum" on per-pixel float values. -/
def betterThanF (wantsMax : Bool) (a b : FloatVal) : Bool :=
  if wantsMax then FloatVal.gtF a b else FloatVal.gtF b a

/-- `scipy.ndimage.maximum_position` / `minimum_position` restricted to one
region: among the listed (position, value) pixels, the first position
attaining the extreme value, or `none` for a region with no pixels. -/
def argBestPair (wantsMax : Bool) : List (Nat × FloatVal) → Option (Nat × FloatVal)
  | [] => none
  | p :: rest =>
      match argBestPair wantsMax rest with
      | none => some p
      | some q => if betterThanF wantsMax q.2 p.2 then some q else some p

/-- `FilterObjects.keep_per_object`: if the enclosing raster has no labels the
result is empty; otherwise build the per-pixel value raster, find the extreme
position inside each enclosing label `1..enclosingMax`, read the child label
at each such position, and return the deduplicated ascending child labels with
a leading 0 stripped.  `none` models the numpy `IndexError` raised when a
child label exceeds the measurement vector's length. -/
def keepPerObject (wantsMax : Bool) (values : List ℚ)
    (srcLabels enclosing : List Nat) : Option (List Nat) :=
  let enclosingMax := enclosing.foldl max 0
  if enclosingMax = 0 then some [] else
  (srcLabels.mapM (trickyLookup wantsMax values)).map fun srcValues =>
    let pixels := labeledPixels 0 enclosing srcValues
    let positions := (List.range enclosingMax).filterMap fun e0 =>
      (argBestPair wantsMax
        ((pixels.filter fun t => t.2.1 = e0 + 1).map fun t => (t.1, t.2.2))).map
        Prod.fst
    let indexes := positions.map fun pos => srcLabels.getD pos 0
    match indexes.toFinset.sort (fun a b => a ≤ b) with
    | 0 :: rest => rest
    | l => l

/-- `label_indexes[indexes] = np.arange(s, s + len(indexes))`: sequential
scatter assignment into the table. -/
def scatterSeq : List Nat → Nat → List Nat → List Nat
  | t, _, [] => t
  | t, s, i :: rest => scatterSeq (t.set i s) (s + 1) rest

/-- Lines 342–345 of `FilterObjects.run`:
`label_indexes = np.zeros((max_label+1,), int); label_indexes[indexes] =
np.arange(1, new_object_count+1)`.  A selected index beyond `max_label` is a
numpy `IndexError` (`none`). -/
def buildRemap (maxLabel : Nat) (indexes : List Nat) : Option (List Nat) :=
  if indexes.all fun i => i ≤ maxLabel then
    some (scatterSeq (List.replicate (maxLabel + 1) 0) 1 indexes)
  else none

/-- numpy integer-array indexing: `t[v]` is `t[v]` for `0 ≤ v < len t`,
wraps to `t[len t + v]` for `-len t ≤ v < 0`, and is an `IndexError`
(`none`) otherwise. -/
def npIndex (t : List Nat) (v : Int) : Option Nat :=
  if 0 ≤ v then t.get? v.toNat
  else if (t.length : Int) + v < 0 then none
  else t.get? ((t.length : Int) + v).toNat

/-- Lines 357–362 of `FilterObjects.run` for one raster:
`target_labels[target_labels > max_label] = 0;
target_labels = label_indexes[target_labels]`. -/
def applyRemap (t : List Nat) (maxLabel : Int) (pixels : List Int) : Option (List Nat) :=
  pixels.mapM fun v => npIndex t (if maxLabel < v then 0 else v)

/-- The relabeling pass of `FilterObjects.run` on the primary raster:
`max_label = np.max(src_objects.segmented)` (the fold models `np.max` for the
nonnegative rasters of the data model), build the remap table from the
selected indices, and remap the raster. -/
def runRelabel (pixels : List Int) (indexes : List Nat) : Option (List Nat) :=
  let maxLabel := pixels.foldl max 0
  (buildRemap maxLabel.toNat indexes).bind fun t => applyRemap t maxLabel pixels

/-! ## Basic lemmas about the shared helpers -/

lemma get?_eq_some_getD {α : Type} (l : List α) (d : α) {i : Nat} (h : i < l.length) :
    l.get? i = some (l.getD i d) := by
  simp [List.get?_eq_getElem?, List.getElem?_eq_getElem h, List.getD_eq_getElem?_getD]

lemma hitsToIndexesFrom_mem (l : List Bool) :
    ∀ (k m : Nat), m ∈ hitsToIndexesFrom k l ↔
      ∃ j, ∃ hj : j < l.length, l.get ⟨j, hj⟩ = true ∧ m = k + j + 1 := by
  induction l with
  | nil => simp [hitsToIndexesFrom]
  | cons b rest ih =>
    intro k m
    cases b with
    | true =>
      simp only [hitsToIndexesFrom, if_true, List.mem_cons]
      constructor
      · rintro (rfl | h2)
        · exact ⟨0, by simp, by simp, by omega⟩
        · obtain ⟨j, hj, hget, hm⟩ := (ih (k + 1) m).mp h2
          exact ⟨j + 1, by simpa using Nat.succ_lt_succ hj, by simpa using hget, by omega⟩
      · rintro ⟨j, hj, hget, hm⟩
        cases j with
        | zero => left; omega
        | succ j =>
          right
          exact (ih (k + 1) m).mpr ⟨j, by simpa using Nat.lt_of_succ_lt_succ hj,
            by simpa using hget, by omega⟩
    | false =>
      simp only [hitsToIndexesFrom, Bool.false_eq_true, if_false]
      rw [ih (k + 1) m]
      constructor
      · rintro ⟨j, hj, hget, hm⟩
        exact ⟨j + 1, by simpa using Nat.succ_lt_succ hj, by simpa using hget, by omega⟩
      · rintro ⟨j, hj, hget, hm⟩
        cases j with
        | zero => simp at hget
        | succ j =>
          exact ⟨j, by simpa using Nat.lt_of_succ_lt_succ hj, by simpa using hget, by omega⟩

lemma hitsToIndexesFrom_pos (l : List Bool) :
    ∀ (k m : Nat), m ∈ hitsToIndexesFrom k l → k < m := by
  induction l with
  | nil => simp [hitsToIndexesFrom]
  | cons b rest ih =>
    intro k m hm
    cases b with
    | true =>
      simp only [hitsToIndexesFrom, if_true, List.mem_cons] at hm
      rcases hm with rfl | hm
      · omega
      · have := ih (k + 1) m hm; omega
    | false =>
      simp only [hitsToIndexesFrom, Bool.false_eq_true, if_false] at hm
      have := ih (k + 1) m hm; omega

lemma hitsToIndexesFrom_sorted (l : List Bool) :
    ∀ k : Nat, List.Sorted (· < ·) (hitsToIndexesFrom k l) := by
  induction l with
  | nil => intro k; simp [hitsToIndexesFrom]
  | cons b rest ih =>
    intro k
    cases b with
    | true =>
      simp only [hitsToIndexesFrom, if_true]
      refine List.sorted_cons.mpr ⟨?_, ih (k + 1)⟩
      intro m hm
      have := hitsToIndexesFrom_pos rest (k + 1) m hm
      omega
    | false =>
      simpa only [hitsToIndexesFrom, Bool.false_eq_true, if_false] using ih (k + 1)

lemma hitsToIndexes_mem (hits : List Bool) (m : Nat) :
    m ∈ hitsToIndexes hits ↔
      ∃ j, ∃ hj : j < hits.length, hits.get ⟨j, hj⟩ = true ∧ m = j + 1 := by
  rw [hitsToIndexes, hitsToIndexesFrom_mem]
  constructor
  · rintro ⟨j, hj, hget, hm⟩; exact ⟨j, hj, hget, by omega⟩
  · rintro ⟨j, hj, hget, hm⟩; exact ⟨j, hj, hget, by omega⟩

lemma hitsToIndexes_sorted (hits : List Bool) :
    List.Sorted (· < ·) (hitsToIndexes hits) :=
  hitsToIndexesFrom_sorted hits 0

lemma hitsToIndexes_pos (hits : List Bool) (m : Nat) (hm : m ∈ hitsToIndexes hits) :
    1 ≤ m :=
  hitsToIndexesFrom_pos hits 0 m hm

lemma applyMask_length (hs : List Bool) :
    ∀ ms : List Bool, (applyMask hs ms).length = hs.length := by
  induction hs with
  | nil => intro ms; cases ms <;> simp [applyMask]
  | cons b t ih => intro ms; cases ms <;> simp [applyMask, ih]

lemma applyMask_get? (hs : List Bool) :
    ∀ (ms : List Bool) (i : Nat),
      (applyMask hs ms).get? i =
        (hs.get? i).map fun b => if ms.getD i false then false else b := by
  induction hs with
  | nil => intro ms i; cases ms <;> simp [applyMask]
  | cons b t ih =>
    intro ms i
    cases ms with
    | nil => simp [applyMask]
    | cons m mt =>
      cases i with
      | zero => simp [applyMask]
      | succ i =>
        simp only [applyMask, List.get?_cons_succ, List.getD_cons_succ]
        exact ih mt i

lemma extendHits_length (hs : List Bool) (n : Nat) :
    (extendHits hs n).length = max hs.length n := by
  rw [extendHits]
  split <;> simp <;> omega

lemma extendHits_get? (hs : List Bool) (n i : Nat) :
    (extendHits hs n).get? i =
      if i < hs.length then hs.get? i else if i < n then some true else none := by
  rw [extendHits]
  split
  · rcases Nat.lt_or_ge i hs.length with hi | hi
    · rw [List.get?_append (by simpa using hi), if_pos hi]
    · rw [List.get?_append_right (by simpa using hi), if_neg (by omega)]
      rcases Nat.lt_or_ge i n with hn | hn
      · rw [if_pos hn]
        have : i - hs.length < n - hs.length := by omega
        simp [List.get?_eq_getElem?, List.getElem?_replicate, this]
      · rw [if_neg (by omega)]
        simp [List.get?_eq_getElem?, List.getElem?_replicate]
        omega
  · rcases Nat.lt_or_ge i hs.length with hi | hi
    · rw [if_pos hi]
    · rw [if_neg (by omega), if_neg (by omega), List.get?_eq_getElem?]
      simp [List.getElem?_eq_none_iff]
      omega

/-- The pure per-criterion step the `hits` accumulator performs: grow to the
current vector's length, then apply the active limit masks.  `stepGroup` is
exactly this on the unwrapped accumulator (an absent accumulator behaves like
an empty one, since growing the empty vector yields a fresh all-`True`
vector). -/
def stepCore (h : List Bool) (g : Criterion) : List Bool :=
  let h0 := extendHits h g.values.length
  let h1 := if g.wantsMinimum then
      applyMask h0 (g.values.map fun v => decide (v < g.minLimit)) else h0
  if g.wantsMaximum then
      applyMask h1 (g.values.map fun v => decide (g.maxLimit < v)) else h1

/-- Whether entry `i` satisfies criterion `g`: entries beyond the criterion's
own vector are untouched by its masks, entries inside it must satisfy the
active limits (inclusively). -/
def passAt (g : Criterion) (i : Nat) : Bool :=
  !(decide (i < g.values.length)) ||
    ((!g.wantsMinimum || decide (g.minLimit ≤ g.values.getD i 0)) &&
     (!g.wantsMaximum || decide (g.values.getD i 0 ≤ g.maxLimit)))

lemma extendHits_nil (n : Nat) : extendHits [] n = List.replicate n true := by
  cases n <;> simp [extendHits]

lemma stepGroup_eq (hits : Option (List Bool)) (g : Criterion) :
    stepGroup hits g = some (stepCore (hits.getD []) g) := by
  cases hits with
  | none => simp [stepGroup, stepCore, extendHits_nil]
  | some h => rfl

lemma map_getD_lt (f : ℚ → Bool) (vs : List ℚ) (i : Nat) (hi : i < vs.length) :
    (vs.map f).getD i false = f (vs.getD i 0) := by
  simp [List.getD_eq_getElem?_getD, List.getElem?_map, List.getElem?_eq_getElem hi]

lemma map_getD_ge (f : ℚ → Bool) (vs : List ℚ) (i : Nat) (hi : vs.length ≤ i) :
    (vs.map f).getD i false = false :=
  List.getD_eq_default _ _ (by simpa using hi)

lemma extendHits_get?_getD (h : List Bool) (n i : Nat) :
    (extendHits h n).get? i =
      if i < max h.length n then some (h.getD i true) else none := by
  rw [extendHits_get?]
  rcases Nat.lt_or_ge i h.length with hi | hi
  · rw [if_pos hi, if_pos (by omega), get?_eq_some_getD h true hi]
  · rcases Nat.lt_or_ge i n with hin | hin
    · rw [if_neg (by omega), if_pos hin, if_pos (by omega), List.getD_eq_default _ _ hi]
    · rw [if_neg (by omega), if_neg (by omega), if_neg (by omega)]

lemma stepCore_get? (h : List Bool) (g : Criterion) (i : Nat) :
    (stepCore h g).get? i =
      if i < max h.length g.values.length then some (h.getD i true && passAt g i) else none := by
  have hmin : ∀ hs : List Bool,
      (if g.wantsMinimum then
        applyMask hs (g.values.map fun v => decide (v < g.minLimit)) else hs).get? i =
      (hs.get? i).map fun b =>
        if g.wantsMinimum && decide (i < g.values.length) &&
            decide (g.values.getD i 0 < g.minLimit) then false else b := by
    intro hs
    cases hwm : g.wantsMinimum with
    | false => simp
    | true =>
      rw [if_pos rfl, applyMask_get?]
      rcases Nat.lt_or_ge i g.values.length with hi | hi
      · rw [map_getD_lt _ _ _ hi]
        simp [hi]
      · rw [map_getD_ge _ _ _ hi]
        simp [Nat.not_lt.mpr hi]
  have hmax : ∀ hs : List Bool,
      (if g.wantsMaximum then
        applyMask hs (g.values.map fun v => decide (g.maxLimit < v)) else hs).get? i =
      (hs.get? i).map fun b =>
        if g.wantsMaximum && decide (i < g.values.length) &&
            decide (g.maxLimit < g.values.getD i 0) then false else b := by
    intro hs
    cases hwm : g.wantsMaximum with
    | false => simp
    | true =>
      rw [if_pos rfl, applyMask_get?]
      rcases Nat.lt_or_ge i g.values.length with hi | hi
      · rw [map_getD_lt _ _ _ hi]
        simp [hi]
      · rw [map_getD_ge _ _ _ hi]
        simp [Nat.not_lt.mpr hi]
  simp only [stepCore]
  rw [hmax, hmin, extendHits_get?_getD]
  rcases Nat.lt_or_ge i (max h.length g.values.length) with hi | hi
  · rw [if_pos hi, if_pos hi]
    simp only [Option.map_some']
    congr 1
    rcases Nat.lt_or_ge i g.values.length with hin | hin
    · cases hb : h.getD i true <;>
        cases hwm : g.wantsMinimum <;>
          cases hwx : g.wantsMaximum <;>
            simp [passAt, hin, hb, hwm, hwx, List.getD_eq_getElem?_getD, ← decide_not,
              not_lt, Bool.and_comm]
    · simp [passAt, Nat.not_lt.mpr hin]
  · rw [if_neg (by omega), if_neg (by omega)]
    rfl

lemma getD_eq_get?_getD {α : Type} (l : List α) (i : Nat) (d : α) :
    l.getD i d = (l.get? i).getD d := by
  simp [List.getD_eq_getElem?_getD, List.get?_eq_getElem?]

lemma stepCore_length (h : List Bool) (g : Criterion) :
    (stepCore h g).length = max h.length g.values.length := by
  cases hwm : g.wantsMinimum <;> cases hwx : g.wantsMaximum <;>
    simp [stepCore, hwm, hwx, applyMask_length, extendHits_length]

lemma foldl_stepGroup_some (groups : List Criterion) :
    ∀ h : List Bool, groups.foldl stepGroup (some h) = some (groups.foldl stepCore h) := by
  induction groups with
  | nil => intro h; rfl
  | cons g gs ih =>
    intro h
    rw [List.foldl_cons, List.foldl_cons, stepGroup_eq]
    simpa using ih (stepCore h g)

lemma keepWithinLimits_eq (groups : List Criterion) (hne : groups ≠ []) :
    keepWithinLimits groups = hitsToIndexes (groups.foldl stepCore []) := by
  cases groups with
  | nil => cases hne rfl
  | cons g gs =>
    have hfold : (g :: gs).foldl stepGroup none = some ((g :: gs).foldl stepCore []) := by
      rw [List.foldl_cons, List.foldl_cons, stepGroup_eq]
      simpa using foldl_stepGroup_some gs (stepCore (Option.getD none []) g)
    simp only [keepWithinLimits, hfold]

lemma foldl_stepCore_length (groups : List Criterion) :
    ∀ h : List Bool, (groups.foldl stepCore h).length =
      groups.foldl (fun n g => max n g.values.length) h.length := by
  induction groups with
  | nil => intro h; rfl
  | cons g gs ih =>
    intro h
    rw [List.foldl_cons, List.foldl_cons, ih (stepCore h g), stepCore_length]

lemma passAt_of_ge (g : Criterion) (i : Nat) (hi : g.values.length ≤ i) :
    passAt g i = true := by
  simp [passAt, Nat.not_lt.mpr hi]

lemma foldl_stepCore_get? (groups : List Criterion) :
    ∀ (h : List Bool) (i : Nat),
      (groups.foldl stepCore h).get? i =
        if i < (groups.foldl stepCore h).length then
          some (h.getD i true && groups.all fun g => passAt g i) else none := by
  induction groups with
  | nil =>
    intro h i
    rcases Nat.lt_or_ge i h.length with hi | hi
    · simpa [hi] using get?_eq_some_getD h true hi
    · simp [Nat.not_lt.mpr hi, List.get?_eq_getElem?, List.getElem?_eq_none hi]
  | cons g gs ih =>
    intro h i
    rw [List.foldl_cons, ih (stepCore h g) i]
    have hstep : (stepCore h g).getD i true =
        if i < max h.length g.values.length then h.getD i true && passAt g i else true := by
      rw [getD_eq_get?_getD, stepCore_get?]
      rcases Nat.lt_or_ge i (max h.length g.values.length) with hi | hi
      · rw [if_pos hi, if_pos hi]; rfl
      · rw [if_neg (by omega), if_neg (by omega)]; rfl
    rcases Nat.lt_or_ge i (gs.foldl stepCore (stepCore h g)).length with hi | hi
    · rw [if_pos hi, if_pos hi, hstep]
      rcases Nat.lt_or_ge i (max h.length g.values.length) with him | him
      · rw [if_pos him]
        simp [Bool.and_assoc, List.all_cons]
      · rw [if_neg (by omega)]
        have h1 : h.getD i true = true := List.getD_eq_default _ _ (by omega)
        have h2 : passAt g i = true := passAt_of_ge g i (by omega)
        simp only [List.getD_eq_getElem?_getD] at h1
        simp [h1, h2, List.all_cons]
    · rw [if_neg (by omega), if_neg (by omega)]

lemma passAt_iff (g : Criterion) (i : Nat) :
    passAt g i = true ↔ (i < g.values.length →
      (g.wantsMinimum = true → g.minLimit ≤ g.values.getD i 0) ∧
      (g.wantsMaximum = true → g.values.getD i 0 ≤ g.maxLimit)) := by
  by_cases hi : i < g.values.length <;>
    cases hwm : g.wantsMinimum <;> cases hwx : g.wantsMaximum <;>
      simp [passAt, hi, hwm, hwx]

lemma mem_keepWithinLimits (groups : List Criterion) (hne : groups ≠ []) (i : Nat) :
    i + 1 ∈ keepWithinLimits groups ↔
      i < groups.foldl (fun n g => max n g.values.length) 0 ∧
      ∀ g ∈ groups, passAt g i = true := by
  rw [keepWithinLimits_eq groups hne, hitsToIndexes_mem]
  have hlen : (groups.foldl stepCore ([] : List Bool)).length =
      groups.foldl (fun n g => max n g.values.length) 0 := by
    simpa using foldl_stepCore_length groups []
  have hval : ∀ hj : i < (groups.foldl stepCore ([] : List Bool)).length,
      (groups.foldl stepCore ([] : List Bool)).get ⟨i, hj⟩ =
        groups.all fun g => passAt g i := by
    intro hj
    have h1 := foldl_stepCore_get? groups [] i
    rw [if_pos hj, List.get?_eq_get hj] at h1
    simpa using h1
  constructor
  · rintro ⟨j, hj, hget, hji⟩
    have hij : i = j := by omega
    subst hij
    rw [hval hj] at hget
    rw [List.all_eq_true] at hget
    exact ⟨by omega, hget⟩
  · rintro ⟨hi, hall⟩
    have hj : i < (groups.foldl stepCore ([] : List Bool)).length := by omega
    refine ⟨i, hj, ?_, rfl⟩
    rw [hval hj, List.all_eq_true]
    exact hall

lemma mem_keepWithinLimits_shape (groups : List Criterion) (m : Nat)
    (hm : m ∈ keepWithinLimits groups) :
    1 ≤ m ∧ m ≤ groups.foldl (fun n g => max n g.values.length) 0 := by
  rcases groups with _ | ⟨g, gs⟩
  · simp [keepWithinLimits] at hm
  · rw [keepWithinLimits_eq _ (by simp), hitsToIndexes_mem] at hm
    obtain ⟨j, hj, _, rfl⟩ := hm
    have hlen : ((g :: gs).foldl stepCore ([] : List Bool)).length =
        (g :: gs).foldl (fun n g => max n g.values.length) 0 := by
      simpa using foldl_stepCore_length (g :: gs) []
    omega

lemma foldl_maxLen_of_all (gs : List Criterion) (N : Nat)
    (h : ∀ g ∈ gs, g.values.length = N) :
    gs.foldl (fun n g => max n g.values.length) N = N := by
  induction gs with
  | nil => rfl
  | cons g t ih =>
    rw [List.foldl_cons, h g (List.mem_cons_self g t), Nat.max_self]
    exact ih fun x hx => h x (List.mem_cons_of_mem g hx)

lemma foldl_maxLen_eq (groups : List Criterion) (N : Nat) (hne : groups ≠ [])
    (h : ∀ g ∈ groups, g.values.length = N) :
    groups.foldl (fun n g => max n g.values.length) 0 = N := by
  rcases groups with _ | ⟨g, gs⟩
  · cases hne rfl
  · rw [List.foldl_cons, h g (List.mem_cons_self g gs), Nat.zero_max]
    exact foldl_maxLen_of_all gs N fun x hx => h x (List.mem_cons_of_mem g hx)

/-- **C2.** For the Range Filter strategy with all measurement vectors of
equal length `N`: the result is a strictly ascending list of 1-based indices
in `[1, N]`, and index `i + 1` survives iff for every criterion the active
minimum bound is satisfied (`value ≥ bound`) and the active maximum bound is
satisfied (`value ≤ bound`), both inclusively; a criterion with no active
bound constrains nothing. -/
theorem rangeFilter_equal_lengths_correct (groups : List Criterion) (N : Nat)
    (hne : groups ≠ []) (hlen : ∀ g ∈ groups, g.values.length = N) :
    List.Sorted (· < ·) (keepWithinLimits groups) ∧
    (∀ m ∈ keepWithinLimits groups, 1 ≤ m ∧ m ≤ N) ∧
    ∀ i : Nat, (i + 1 ∈ keepWithinLimits groups ↔
      i < N ∧ ∀ g ∈ groups,
        (g.wantsMinimum = true → g.minLimit ≤ g.values.getD i 0) ∧
        (g.wantsMaximum = true → g.values.getD i 0 ≤ g.maxLimit)) := by
  have hN := foldl_maxLen_eq groups N hne hlen
  refine ⟨?_, ?_, ?_⟩
  · rw [keepWithinLimits_eq groups hne]
    exact hitsToIndexes_sorted _
  · intro m hm
    have := mem_keepWithinLimits_shape groups m hm
    omega
  · intro i
    rw [mem_keepWithinLimits groups hne i, hN]
    constructor
    · rintro ⟨hi, hall⟩
      refine ⟨hi, fun g hg => ?_⟩
      exact (passAt_iff g i).mp (hall g hg) (by rw [hlen g hg]; exact hi)
    · rintro ⟨hi, hall⟩
      refine ⟨hi, fun g hg => ?_⟩
      exact (passAt_iff g i).mpr fun _ => hall g hg

/-- Witness for `rangeFilter_equal_lengths_correct`: scenario B of the spec,
`values = [5, 15, 25, 35]`, lower limit 10, upper limit 30, survivors `{2, 3}`. -/
theorem rangeFilter_equal_lengths_correct_witness :
    keepWithinLimits [⟨[5, 15, 25, 35], true, 10, true, 30⟩] = [2, 3] ∧
    (2 ∈ keepWithinLimits [⟨[5, 15, 25, 35], true, 10, true, 30⟩] ∧
     3 ∈ keepWithinLimits [⟨[5, 15, 25, 35], true, 10, true, 30⟩]) := by
  have h := rangeFilter_equal_lengths_correct
    [⟨[5, 15, 25, 35], true, 10, true, 30⟩] 4 (by simp) (by simp)
  refine ⟨by decide, ?_, ?_⟩
  · exact (h.2.2 1).mpr ⟨by decide, by decide⟩
  · exact (h.2.2 2).mpr ⟨by decide, by decide⟩

/-- **C5, counterexample.** Two criteria with vectors of lengths 2 and 1:
the first criterion (minimum 0 over `[5, 5]`) passes both entries, the second
criterion (minimum 10 over `[5]`) clears only entry 1, the only entry its
shorter vector covers.  The result is `[2]`: object 2 — beyond the shortest
vector's length 1 — survives, contradicting the claim that every index beyond
the shortest length is excluded. -/
theorem rangeFilter_shortest_governs_counterexample :
    keepWithinLimits [⟨[5, 5], true, 0, false, 0⟩, ⟨[5], true, 10, false, 0⟩] = [2] ∧
    ¬(2 : Nat) ≤ 1 := by
  exact ⟨by decide, by decide⟩

/-- **C5, amended.** When the measurement vectors differ in length, the
*longest* vector's length governs the candidate range: the `hits` vector grows
to the running maximum of the lengths with new trailing entries initialised to
passing, each criterion constrains only the indices inside its own vector
(an index beyond a shorter vector is unconstrained by that criterion), and no
error is raised — `keepWithinLimits` is total. -/
theorem rangeFilter_longest_governs (groups : List Criterion) (hne : groups ≠ []) :
    ∀ i : Nat, i + 1 ∈ keepWithinLimits groups ↔
      (i < groups.foldl (fun n g => max n g.values.length) 0 ∧
       ∀ g ∈ groups, i < g.values.length →
         (g.wantsMinimum = true → g.minLimit ≤ g.values.getD i 0) ∧
         (g.wantsMaximum = true → g.values.getD i 0 ≤ g.maxLimit)) := by
  intro i
  rw [mem_keepWithinLimits groups hne i]
  constructor
  · rintro ⟨hi, hall⟩
    exact ⟨hi, fun g hg hlen => (passAt_iff g i).mp (hall g hg) hlen⟩
  · rintro ⟨hi, hall⟩
    exact ⟨hi, fun g hg => (passAt_iff g i).mpr (hall g hg)⟩

/-- Witness for `rangeFilter_longest_governs`, at the counterexample input:
index 2 survives because the second, shorter criterion does not constrain it. -/
theorem rangeFilter_longest_governs_witness :
    (2 : Nat) ∈ keepWithinLimits
      [⟨[5, 5], true, 0, false, 0⟩, ⟨[5], true, 10, false, 0⟩] := by
  exact (rangeFilter_longest_governs
    [⟨[5, 5], true, 0, false, 0⟩, ⟨[5], true, 10, false, 0⟩] (by simp) 1).mpr
    ⟨by decide, by decide⟩

lemma gtF_ninf_left (y : FloatVal) : FloatVal.gtF FloatVal.ninf y = false := by
  cases y <;> rfl

lemma gtF_pinf_right (x : FloatVal) : FloatVal.gtF x FloatVal.pinf = false := by
  cases x <;> rfl

lemma mem_keepByRules (scores : List (FloatVal × FloatVal)) (i : Nat) :
    i + 1 ∈ keepByRules scores ↔
      ∃ hi : i < scores.length,
        FloatVal.gtF (coerceScores (scores.get ⟨i, hi⟩)).1
          (coerceScores (scores.get ⟨i, hi⟩)).2 = true := by
  rw [keepByRules, hitsToIndexes_mem]
  constructor
  · rintro ⟨j, hj, hget, hji⟩
    have hij : i = j := by omega
    subst hij
    have hi : i < scores.length := by simpa using hj
    refine ⟨hi, ?_⟩
    have : (scores.map fun s => FloatVal.gtF (coerceScores s).1 (coerceScores s).2).get
        ⟨i, hj⟩ = FloatVal.gtF (coerceScores (scores.get ⟨i, hi⟩)).1
          (coerceScores (scores.get ⟨i, hi⟩)).2 := by
      simp [List.get_map]
    rwa [this] at hget
  · rintro ⟨hi, hgt⟩
    have hj : i < (scores.map fun s =>
        FloatVal.gtF (coerceScores s).1 (coerceScores s).2).length := by simpa using hi
    refine ⟨i, hj, ?_, rfl⟩
    simpa [List.get_map] using hgt

/-- **C6.** For the Rule/Classifier Filter: a NaN positive score is coerced
to `-inf` and a NaN negative score to `+inf` (`coerceScores`), and object
`i + 1` is in the result iff its coerced positive score strictly exceeds its
coerced negative score; consequently any row with a NaN in either column is
excluded. -/
theorem ruleFilter_nan_rejection (scores : List (FloatVal × FloatVal)) :
    (∀ i : Nat, i + 1 ∈ keepByRules scores ↔
      ∃ hi : i < scores.length,
        FloatVal.gtF (coerceScores (scores.get ⟨i, hi⟩)).1
          (coerceScores (scores.get ⟨i, hi⟩)).2 = true) ∧
    (∀ (i : Nat) (hi : i < scores.length),
      ((scores.get ⟨i, hi⟩).1.isNaN = true ∨ (scores.get ⟨i, hi⟩).2.isNaN = true) →
        i + 1 ∉ keepByRules scores) := by
  refine ⟨fun i => mem_keepByRules scores i, ?_⟩
  rintro i hi hnan hmem
  obtain ⟨hi2, hgt⟩ := (mem_keepByRules scores i).mp hmem
  rcases hnan with h1 | h1
  · rw [show (coerceScores (scores.get ⟨i, hi2⟩)).1 = FloatVal.ninf from by
      simp only [coerceScores]
      rw [if_pos h1], gtF_ninf_left] at hgt
    exact Bool.false_ne_true hgt
  · rw [show (coerceScores (scores.get ⟨i, hi2⟩)).2 = FloatVal.pinf from by
      simp only [coerceScores]
      rw [if_pos h1], gtF_pinf_right] at hgt
    exact Bool.false_ne_true hgt

/-- Witness for `ruleFilter_nan_rejection`: row 1 (finite, 3 > 2) is kept,
row 2 (NaN positive score) and row 3 (NaN negative score) are rejected. -/
theorem ruleFilter_nan_rejection_witness :
    (1 : Nat) ∈ keepByRules
      [(FloatVal.val 3, FloatVal.val 2), (FloatVal.nan, FloatVal.val 0),
       (FloatVal.val 5, FloatVal.nan)] ∧
    (2 : Nat) ∉ keepByRules
      [(FloatVal.val 3, FloatVal.val 2), (FloatVal.nan, FloatVal.val 0),
       (FloatVal.val 5, FloatVal.nan)] ∧
    (3 : Nat) ∉ keepByRules
      [(FloatVal.val 3, FloatVal.val 2), (FloatVal.nan, FloatVal.val 0),
       (FloatVal.val 5, FloatVal.nan)] := by
  refine ⟨?_, ?_, ?_⟩
  · exact ((ruleFilter_nan_rejection _).1 0).mpr ⟨by decide, by decide⟩
  · exact (ruleFilter_nan_rejection _).2 1 (by decide) (Or.inl (by decide))
  · exact (ruleFilter_nan_rejection _).2 2 (by decide) (Or.inr (by decide))

lemma betterThan_irrefl (wm : Bool) (a : ℚ) : betterThan wm a a = false := by
  cases wm <;> simp [betterThan]

lemma betterThan_asymm {wm : Bool} {a b : ℚ} (h : betterThan wm a b = true) :
    betterThan wm b a = false := by
  cases wm <;> simp [betterThan] at h ⊢ <;> linarith

lemma betterThan_chain {wm : Bool} {a b c : ℚ} (h1 : betterThan wm a b = false)
    (h2 : betterThan wm b c = false) : betterThan wm a c = false := by
  cases wm <;> simp [betterThan] at h1 h2 ⊢ <;> linarith

lemma argBestVal_spec (wm : Bool) (l : List ℚ) (hne : l ≠ []) :
    ∃ i, ∃ hi : i < l.length, argBestVal wm l = some (i, l.get ⟨i, hi⟩) ∧
      (∀ j, ∀ hj : j < l.length,
        betterThan wm (l.get ⟨j, hj⟩) (l.get ⟨i, hi⟩) = false) ∧
      (∀ j, ∀ hj : j < l.length, j < i →
        betterThan wm (l.get ⟨i, hi⟩) (l.get ⟨j, hj⟩) = true) := by
  induction l with
  | nil => cases hne rfl
  | cons v rest ih =>
    rcases eq_or_ne rest [] with hr | hr
    · subst hr
      refine ⟨0, by simp, by simp [argBestVal], ?_, ?_⟩
      · intro j hj
        have hj0 : j = 0 := by simpa using hj
        subst hj0
        exact betterThan_irrefl wm v
      · intro j hj hj0
        omega
    · obtain ⟨i, hi, heq, hbest, hfirst⟩ := ih hr
      by_cases hb : betterThan wm (rest.get ⟨i, hi⟩) v = true
      · refine ⟨i + 1, by simpa using Nat.succ_lt_succ hi, ?_, ?_, ?_⟩
        · have hb2 : betterThan wm rest[i] v = true := hb
          simp [argBestVal, heq, hb2]
        · intro j hj
          cases j with
          | zero => simpa using betterThan_asymm hb
          | succ j => simpa using hbest j (by simpa using Nat.lt_of_succ_lt_succ hj)
        · intro j hj hji
          cases j with
          | zero => simpa using hb
          | succ j =>
            simpa using hfirst j (by simpa using Nat.lt_of_succ_lt_succ hj) (by omega)
      · have hb' : betterThan wm (rest.get ⟨i, hi⟩) v = false :=
          Bool.eq_false_iff.mpr hb
        refine ⟨0, by simp, ?_, ?_, ?_⟩
        · have hb2 : betterThan wm rest[i] v = false := hb'
          simp [argBestVal, heq, hb2]
        · intro j hj
          cases j with
          | zero => simpa using betterThan_irrefl wm v
          | succ j =>
            have hjr : j < rest.length := by simpa using Nat.lt_of_succ_lt_succ hj
            simpa using betterThan_chain (hbest j hjr) hb'
        · intro j hj hj0
          omega

/-- **C8.** For the Single Extremum strategy over a measurement vector: an
empty vector yields the empty result without error; otherwise the result is
the singleton `[i + 1]` where `i` is the position of the extremum — the value
at `i` is maximal (maximise) or minimal (minimise) over the whole vector, and
`i` is the first position attaining it (every strictly earlier position holds
a strictly worse value), so the choice is deterministic. -/
theorem singleExtremum_correct (wm : Bool) (values : List ℚ) :
    (values = [] → keepOne wm values = []) ∧
    (values ≠ [] → ∃ i, ∃ hi : i < values.length, keepOne wm values = [i + 1] ∧
      (∀ j, ∀ hj : j < values.length,
        (wm = true → values.get ⟨j, hj⟩ ≤ values.get ⟨i, hi⟩) ∧
        (wm = false → values.get ⟨i, hi⟩ ≤ values.get ⟨j, hj⟩)) ∧
      (∀ j, ∀ hj : j < values.length, j < i →
        (wm = true → values.get ⟨j, hj⟩ < values.get ⟨i, hi⟩) ∧
        (wm = false → values.get ⟨i, hi⟩ < values.get ⟨j, hj⟩))) := by
  constructor
  · rintro rfl
    rfl
  · intro hne
    obtain ⟨i, hi, heq, hbest, hfirst⟩ := argBestVal_spec wm values hne
    refine ⟨i, hi, by simp [keepOne, heq], ?_, ?_⟩
    · intro j hj
      have h := hbest j hj
      constructor <;> rintro rfl <;> simp [betterThan] at h <;>
        simpa [List.get_eq_getElem] using h
    · intro j hj hji
      have h := hfirst j hj hji
      constructor <;> rintro rfl <;> simp [betterThan] at h <;>
        simpa [List.get_eq_getElem] using h
/-- Witness for `singleExtremum_correct`: scenario A of the spec
(`area = [10, 50, 30]`, maximise) returns the single object 2, and the empty
vector returns the empty result. -/
theorem singleExtremum_correct_witness :
    keepOne true [(10 : ℚ), 50, 30] = [2] ∧ keepOne false ([] : List ℚ) = [] := by
  constructor
  · obtain ⟨i, hi, heq, hbest, hfirst⟩ :=
      (singleExtremum_correct true [(10 : ℚ), 50, 30]).2 (by simp)
    have hi3 : i < 3 := by simpa using hi
    have h50 := (hbest 1 (by norm_num)).1 rfl
    interval_cases i
    · exfalso; norm_num at h50
    · exact heq
    · exfalso; norm_num at h50
  · exact (singleExtremum_correct false []).1 rfl

lemma scatterSeq_length (idxs : List Nat) :
    ∀ (t : List Nat) (s : Nat), (scatterSeq t s idxs).length = t.length := by
  induction idxs with
  | nil => intro t s; rfl
  | cons a rest ih =>
    intro t s
    rw [show scatterSeq t s (a :: rest) = scatterSeq (t.set a s) (s + 1) rest from rfl,
      ih, List.length_set]

lemma scatterSeq_get?_not_mem (idxs : List Nat) :
    ∀ (t : List Nat) (s i : Nat), i ∉ idxs →
      (scatterSeq t s idxs).get? i = t.get? i := by
  induction idxs with
  | nil => intro t s i _; rfl
  | cons a rest ih =>
    intro t s i hi
    rw [show scatterSeq t s (a :: rest) = scatterSeq (t.set a s) (s + 1) rest from rfl,
      ih _ _ _ (fun h => hi (List.mem_cons_of_mem a h)),
      List.get?_set_ne _ _ (by rintro rfl; exact hi (List.mem_cons_self a rest))]

lemma scatterSeq_get?_mem (idxs : List Nat) :
    ∀ (hnd : idxs.Nodup) (t : List Nat) (s j : Nat) (hj : j < idxs.length),
      idxs.get ⟨j, hj⟩ < t.length →
      (scatterSeq t s idxs).get? (idxs.get ⟨j, hj⟩) = some (s + j) := by
  induction idxs with
  | nil => intro _ t s j hj; simp at hj
  | cons a rest ih =>
    intro hnd t s j hj hlt
    rw [show scatterSeq t s (a :: rest) = scatterSeq (t.set a s) (s + 1) rest from rfl]
    cases j with
    | zero =>
      have ha : a ∉ rest := (List.nodup_cons.mp hnd).1
      have hga : (a :: rest).get ⟨0, hj⟩ = a := rfl
      rw [hga] at hlt ⊢
      rw [scatterSeq_get?_not_mem rest _ _ _ ha,
        List.get?_set_eq_of_lt _ (by simpa using hlt)]
      simp
    | succ j =>
      have hjr : j < rest.length := by simpa using Nat.lt_of_succ_lt_succ hj
      have hg : (a :: rest).get ⟨j + 1, hj⟩ = rest.get ⟨j, hjr⟩ := rfl
      rw [hg] at hlt ⊢
      rw [ih (List.nodup_cons.mp hnd).2 (t.set a s) (s + 1) j hjr
        (by simpa [List.length_set] using hlt)]
      congr 1
      omega

lemma buildRemap_some (maxLabel : Nat) (indexes : List Nat)
    (hle : ∀ i ∈ indexes, i ≤ maxLabel) :
    buildRemap maxLabel indexes =
      some (scatterSeq (List.replicate (maxLabel + 1) 0) 1 indexes) := by
  rw [buildRemap, if_pos]
  simpa [List.all_eq_true] using hle

lemma replicate_get?_lt (n : Nat) (a i : Nat) (h : i < n) :
    (List.replicate n a).get? i = some a := by
  simp [List.get?_eq_getElem?, List.getElem?_replicate, h]

/-- The remap table built by `buildRemap` from a strictly increasing list of
survivors in `[1, maxLabel]`: it has length `maxLabel + 1`, sends `0` to `0`,
sends the `j`-th survivor to `j + 1`, and everything else to `0`. -/
lemma remapTable_spec (maxLabel : Nat) (indexes : List Nat)
    (hsort : List.Chain' (· < ·) indexes)
    (hrange : ∀ i ∈ indexes, 1 ≤ i ∧ i ≤ maxLabel) :
    buildRemap maxLabel indexes =
      some (scatterSeq (List.replicate (maxLabel + 1) 0) 1 indexes) ∧
    (scatterSeq (List.replicate (maxLabel + 1) 0) 1 indexes).length = maxLabel + 1 ∧
    (scatterSeq (List.replicate (maxLabel + 1) 0) 1 indexes).get? 0 = some 0 ∧
    (∀ j, ∀ hj : j < indexes.length,
      (scatterSeq (List.replicate (maxLabel + 1) 0) 1 indexes).get?
        (indexes.get ⟨j, hj⟩) = some (j + 1)) ∧
    (∀ i, i ≤ maxLabel → i ∉ indexes →
      (scatterSeq (List.replicate (maxLabel + 1) 0) 1 indexes).get? i = some 0) := by
  have hnd : indexes.Nodup :=
    (List.chain'_iff_pairwise.mp hsort).imp fun h => Nat.ne_of_lt h
  refine ⟨buildRemap_some _ _ fun i hi => (hrange i hi).2, ?_, ?_, ?_, ?_⟩
  · rw [scatterSeq_length, List.length_replicate]
  · have h0 : (0 : Nat) ∉ indexes := fun h => by have := (hrange 0 h).1; omega
    rw [scatterSeq_get?_not_mem _ _ _ _ h0, replicate_get?_lt _ _ _ (by omega)]
  · intro j hj
    have hmem : indexes.get ⟨j, hj⟩ ∈ indexes := List.get_mem indexes j hj
    have hlt : indexes.get ⟨j, hj⟩ < (List.replicate (maxLabel + 1) 0).length := by
      rw [List.length_replicate]
      have := (hrange _ hmem).2
      omega
    rw [scatterSeq_get?_mem indexes hnd _ 1 j hj hlt]
    congr 1
    omega
  · intro i hi hni
    rw [scatterSeq_get?_not_mem _ _ _ _ hni, replicate_get?_lt _ _ _ (by omega)]

/-- **C1.** For every `maxLabel` and strictly increasing survivor list with
entries in `[1, maxLabel]`, the remap table maps `0` to `0`, maps the `j`-th
survivor (ascending) to the sequential new index `j + 1` — so survivors keep
their relative order, as the final monotonicity clause states — and maps every
other index `≤ maxLabel` to `0`. -/
theorem remapTable_correct (maxLabel : Nat) (indexes : List Nat)
    (hsort : List.Chain' (· < ·) indexes)
    (hrange : ∀ i ∈ indexes, 1 ≤ i ∧ i ≤ maxLabel) :
    ∃ t, buildRemap maxLabel indexes = some t ∧
      t.length = maxLabel + 1 ∧
      t.get? 0 = some 0 ∧
      (∀ j, ∀ hj : j < indexes.length, t.get? (indexes.get ⟨j, hj⟩) = some (j + 1)) ∧
      (∀ i, i ≤ maxLabel → i ∉ indexes → t.get? i = some 0) ∧
      (∀ j1 j2, ∀ hj1 : j1 < indexes.length, ∀ hj2 : j2 < indexes.length,
        indexes.get ⟨j1, hj1⟩ < indexes.get ⟨j2, hj2⟩ →
          t.getD (indexes.get ⟨j1, hj1⟩) 0 < t.getD (indexes.get ⟨j2, hj2⟩) 0) := by
  obtain ⟨heq, hlen, h0, hsurv, hother⟩ := remapTable_spec maxLabel indexes hsort hrange
  refine ⟨_, heq, hlen, h0, hsurv, hother, ?_⟩
  intro j1 j2 hj1 hj2 hlt
  have hpw := List.chain'_iff_pairwise.mp hsort
  have hj12 : j1 < j2 := by
    by_contra hge
    push_neg at hge
    rcases Nat.lt_or_ge j2 j1 with hlt2 | hle2
    · have := List.pairwise_iff_get.mp hpw ⟨j2, hj2⟩ ⟨j1, hj1⟩ (by simpa using hlt2)
      omega
    · have hj21 : j1 = j2 := by omega
      subst hj21
      omega
  rw [getD_eq_get?_getD, getD_eq_get?_getD, hsurv j1 hj1, hsurv j2 hj2]
  simpa using hj12

/-- Witness for `remapTable_correct`: survivors `[1, 3]` of `maxLabel = 3`
give the table sending 1 ↦ 1, 3 ↦ 2 and everything else (0 and 2) to 0. -/
theorem remapTable_correct_witness :
    ∃ t, buildRemap 3 [1, 3] = some t ∧ t.get? 0 = some 0 ∧
      t.get? 1 = some 1 ∧ t.get? 2 = some 0 ∧ t.get? 3 = some 2 := by
  obtain ⟨t, heq, _, h0, hsurv, hother, _⟩ :=
    remapTable_correct 3 [1, 3] (List.Chain.cons (by norm_num) List.Chain.nil) (by decide)
  exact ⟨t, heq, h0, hsurv 0 (by decide), hother 2 (by decide) (by decide),
    hsurv 1 (by decide)⟩

/-- **C10.** Remap-table construction fails with a numpy IndexError exactly
when a selected index exceeds `maxLabel`; when every selected index is at
most `maxLabel`, construction succeeds. -/
theorem remapTable_out_of_range (maxLabel : Nat) (indexes : List Nat) :
    (buildRemap maxLabel indexes = none ↔ ∃ i ∈ indexes, maxLabel < i) ∧
    ((∀ i ∈ indexes, i ≤ maxLabel) → ∃ t, buildRemap maxLabel indexes = some t) := by
  refine ⟨⟨?_, ?_⟩, ?_⟩
  · intro h
    by_contra hno
    push_neg at hno
    rw [buildRemap, if_pos (by simpa [List.all_eq_true] using hno)] at h
    cases h
  · rintro ⟨i, hi, hgt⟩
    rw [buildRemap, if_neg]
    simp only [List.all_eq_true, decide_eq_true_eq]
    push_neg
    exact ⟨i, hi, by omega⟩
  · intro hall
    exact ⟨_, buildRemap_some _ _ hall⟩

/-- Witness for `remapTable_out_of_range`: index 2 with `maxLabel = 1` fails,
indices `[1, 3]` with `maxLabel = 3` succeed. -/
theorem remapTable_out_of_range_witness :
    buildRemap 1 [1, 2] = none ∧ ∃ t, buildRemap 3 [1, 3] = some t :=
  ⟨(remapTable_out_of_range 1 [1, 2]).1.mpr ⟨2, by decide, by decide⟩,
   (remapTable_out_of_range 3 [1, 3]).2 (by decide)⟩

lemma getD_map_lt {α β : Type} (f : α → β) (l : List α) (i : Nat) (d : β)
    (h : i < l.length) :
    (l.map f).getD i d = f (l.get ⟨i, h⟩) := by
  rw [getD_eq_get?_getD, List.get?_map, List.get?_eq_get h]
  rfl

lemma applyRemap_eq_map (t : List Nat) (M : Nat) (ht : t.length = M + 1) :
    ∀ pixels : List Int, (∀ v ∈ pixels, 0 ≤ v) →
      applyRemap t (M : Int) pixels =
        some (pixels.map fun v => t.getD (if (M : Int) < v then 0 else v.toNat) 0) := by
  intro pixels
  induction pixels with
  | nil => intro _; rfl
  | cons v rest ih =>
    intro hp
    have hv : 0 ≤ v := hp v (List.mem_cons_self v rest)
    have hf : npIndex t (if (M : Int) < v then 0 else v) =
        some (t.getD (if (M : Int) < v then 0 else v.toNat) 0) := by
      by_cases hMv : (M : Int) < v
      · rw [if_pos hMv, if_pos hMv, npIndex, if_pos le_rfl]
        exact get?_eq_some_getD t 0 (by omega)
      · rw [if_neg hMv, if_neg hMv, npIndex, if_pos hv]
        exact get?_eq_some_getD t 0 (by omega)
    have hrest := ih fun w hw => hp w (List.mem_cons_of_mem v hw)
    simp only [applyRemap] at hrest ⊢
    rw [List.mapM_cons, hf, hrest]
    rfl

/-- **C9, evidence.** The relabeling pass does *not* reject a negative pixel
value: with the remap table `[0, 0, 0, 2 ↦ 0, 3 ↦ 1]` for `maxLabel = 3`, the
pixel value `-1` passes the `> max_label` zeroing untouched and is then
silently remapped through numpy's negative wrap-around indexing to
`remap[4 - 1] = remap[3] = 1` — a corrupt pixel comes out carrying the valid
new index 1 and no error is raised.  (Only a value below `-(maxLabel + 1)`,
such as `-5`, raises an IndexError.) -/
theorem negativeLabel_silently_remapped :
    applyRemap [0, 0, 0, 1] 3 [-1] = some [1] ∧
    applyRemap [0, 0, 0, 1] 3 [-5] = none := by
  exact ⟨rfl, rfl⟩

/-- **C3.** One remap table serves every raster: pixel values above
`maxLabel` are zeroed first and come out as 0 (never passed through), the
output raster has the same length (shape) as its input, and any two pixels —
in the same raster or in two different rasters — that carry the same original
label carry the same new index after remapping. -/
theorem linkedRaster_consistency (maxLabel : Nat) (indexes : List Nat) (t : List Nat)
    (hsort : List.Chain' (· < ·) indexes)
    (hrange : ∀ i ∈ indexes, 1 ≤ i ∧ i ≤ maxLabel)
    (hbuild : buildRemap maxLabel indexes = some t)
    (p q : List Int) (hp : ∀ v ∈ p, 0 ≤ v) (hq : ∀ v ∈ q, 0 ≤ v) :
    ∃ op oq, applyRemap t (maxLabel : Int) p = some op ∧
      applyRemap t (maxLabel : Int) q = some oq ∧
      op.length = p.length ∧ oq.length = q.length ∧
      (∀ k, ∀ hk : k < p.length, (maxLabel : Int) < p.get ⟨k, hk⟩ → op.getD k 0 = 0) ∧
      (∀ k1 k2, ∀ hk1 : k1 < p.length, ∀ hk2 : k2 < q.length,
        p.get ⟨k1, hk1⟩ = q.get ⟨k2, hk2⟩ → op.getD k1 0 = oq.getD k2 0) := by
  obtain ⟨heq, hlen, h0, _, _⟩ := remapTable_spec maxLabel indexes hsort hrange
  rw [heq] at hbuild
  obtain rfl : scatterSeq (List.replicate (maxLabel + 1) 0) 1 indexes = t :=
    Option.some_injective _ hbuild
  have hmapP := applyRemap_eq_map _ maxLabel hlen p hp
  have hmapQ := applyRemap_eq_map _ maxLabel hlen q hq
  refine ⟨_, _, hmapP, hmapQ, by simp, by simp, ?_, ?_⟩
  · intro k hk hgt
    rw [getD_map_lt _ p k 0 hk, if_pos hgt]
    rw [getD_eq_get?_getD, h0]
    rfl
  · intro k1 k2 hk1 hk2 hsame
    rw [getD_map_lt _ p k1 0 hk1, getD_map_lt _ q k2 0 hk2, hsame]

/-- Witness for `linkedRaster_consistency`: table for survivors `[1, 3]` of
`maxLabel = 3`, primary raster `[1, 2, 3]` and linked raster `[3, 1, 5]`; the
pixels carrying original label 3 in the two rasters get the same new index. -/
theorem linkedRaster_consistency_witness :
    ∃ op oq, applyRemap [0, 1, 0, 2] 3 [1, 2, 3] = some op ∧
      applyRemap [0, 1, 0, 2] 3 [3, 1, 5] = some oq ∧
      op.getD 2 0 = oq.getD 0 0 := by
  obtain ⟨op, oq, h1, h2, _, _, _, hsame⟩ :=
    linkedRaster_consistency 3 [1, 3] [0, 1, 0, 2]
      (List.Chain.cons (by norm_num) List.Chain.nil) (by decide) (by decide)
      [1, 2, 3] [3, 1, 5] (by decide) (by decide)
  exact ⟨op, oq, h1, h2, hsame 2 0 (by decide) (by decide) (by decide)⟩

lemma le_foldl_max {α : Type} [LinearOrder α] (l : List α) :
    ∀ a : α, a ≤ l.foldl max a := by
  induction l with
  | nil => intro a; exact le_rfl
  | cons v rest ih =>
    intro a
    exact le_trans (le_max_left a v) (ih (max a v))

lemma mem_le_foldl_max {α : Type} [LinearOrder α] (l : List α) :
    ∀ a : α, ∀ x ∈ l, x ≤ l.foldl max a := by
  induction l with
  | nil => intro a x hx; cases hx
  | cons v rest ih =>
    intro a x hx
    rcases List.mem_cons.mp hx with rfl | hx
    · exact le_trans (le_max_right a x) (le_foldl_max rest (max a x))
    · exact ih (max a v) x hx

lemma foldl_max_le {α : Type} [LinearOrder α] (l : List α) :
    ∀ a b : α, a ≤ b → (∀ x ∈ l, x ≤ b) → l.foldl max a ≤ b := by
  induction l with
  | nil => intro a b hab _; exact hab
  | cons v rest ih =>
    intro a b hab hall
    exact ih (max a v) b (max_le hab (hall v (List.mem_cons_self v rest)))
      fun x hx => hall x (List.mem_cons_of_mem v hx)


/-- **C4, counterexample.** Raster `[1, 3]` (labels 1 and 3 present,
`maxLabel = 3`) filtered with the Selection Result `[2]` (`K = 1`): label 2
occurs nowhere in the raster, so the relabeled raster is `[0, 0]` and its
maximum pixel value is 0, not `K = 1`, and it has 0 distinct non-zero labels,
not 1.  The claim fails for a Selection Result containing an index absent
from the raster. -/
theorem relabel_conservation_counterexample :
    runRelabel [1, 3] [2] = some [0, 0] ∧
    ([0, 0] : List Nat).foldl max 0 = 0 ∧ ([2] : List Nat).length = 1 := by
  exact ⟨rfl, rfl, rfl⟩

/-- **C4, amended.** For a relabeling pass on a nonnegative primary raster
whose Selection Result is strictly increasing, within `[1, maxLabel]`, and —
the amendment — consists of labels that actually occur in the raster: the
pass succeeds, the relabeled raster has the same length, its maximum pixel
value is exactly `K = |Selection Result|` (so 0 when `K = 0`), the number of
distinct non-zero labels equals `K`, and every pixel whose old label is not
in the Selection Result receives 0. -/
theorem relabel_conservation (pixels : List Int) (indexes : List Nat)
    (hp : ∀ v ∈ pixels, 0 ≤ v)
    (hsort : List.Chain' (· < ·) indexes)
    (hrange : ∀ i ∈ indexes, 1 ≤ i ∧ (i : Int) ≤ pixels.foldl max 0)
    (hpresent : ∀ i ∈ indexes, (i : Int) ∈ pixels) :
    ∃ out, runRelabel pixels indexes = some out ∧
      out.length = pixels.length ∧
      out.foldl max 0 = indexes.length ∧
      (out.toFinset.erase 0).card = indexes.length ∧
      (∀ k, ∀ hk : k < pixels.length, (pixels.get ⟨k, hk⟩).toNat ∉ indexes →
        out.getD k 0 = 0) := by
  set M : Int := pixels.foldl max 0 with hMdef
  have hM0 : (0 : Int) ≤ M := le_foldl_max pixels 0
  set Mn : Nat := M.toNat with hMndef
  have hMcast : (Mn : Int) = M := Int.toNat_of_nonneg hM0
  have hvle : ∀ v ∈ pixels, v ≤ M := mem_le_foldl_max pixels 0
  have hrange2 : ∀ i ∈ indexes, 1 ≤ i ∧ i ≤ Mn := by
    intro i hi
    have := hrange i hi
    omega
  obtain ⟨heq, hlen, h0, hsurv, hother⟩ := remapTable_spec Mn indexes hsort hrange2
  set t : List Nat := scatterSeq (List.replicate (Mn + 1) 0) 1 indexes with htdef
  set K : Nat := indexes.length with hKdef
  have hmap := applyRemap_eq_map t Mn hlen pixels hp
  rw [hMcast] at hmap
  set f : Int → Nat := fun v => t.getD (if M < v then 0 else v.toNat) 0 with hfdef
  have hrun : runRelabel pixels indexes = some (pixels.map f) := by
    simp only [runRelabel]
    rw [← hMdef, ← hMndef, heq, Option.some_bind]
    exact hmap
  have hfval : ∀ v ∈ pixels, f v = t.getD v.toNat 0 := by
    intro v hv
    rw [hfdef]
    simp only []
    rw [if_neg (not_lt.mpr (hvle v hv))]
  have htoNat_le : ∀ v ∈ pixels, v.toNat ≤ Mn := by
    intro v hv
    have h1 := hvle v hv
    have h2 := hp v hv
    omega
  have htval_le : ∀ i : Nat, i ≤ Mn → t.getD i 0 ≤ K := by
    intro i hi
    by_cases hmem : i ∈ indexes
    · obtain ⟨⟨j, hj⟩, hget⟩ := List.mem_iff_get.mp hmem
      rw [← hget, getD_eq_get?_getD, hsurv j hj]
      simpa using hj
    · rw [getD_eq_get?_getD, hother i hi hmem]
      simp
  have hout_le : ∀ x ∈ pixels.map f, x ≤ K := by
    intro x hx
    obtain ⟨v, hv, rfl⟩ := List.mem_map.mp hx
    rw [hfval v hv]
    exact htval_le v.toNat (htoNat_le v hv)
  have hsurv_getD : ∀ (j : Nat) (hj : j < indexes.length),
      t.getD (indexes.get ⟨j, hj⟩) 0 = j + 1 := by
    intro j hj
    rw [getD_eq_get?_getD, hsurv j hj]
    rfl
  have hKval : ∀ (x : Nat), 1 ≤ x → x ≤ K → x ∈ pixels.map f := by
    intro x hx1 hxK
    have hj : x - 1 < indexes.length := by omega
    have hmemi := List.get_mem indexes (x - 1) hj
    have hpix := hpresent _ hmemi
    refine List.mem_map.mpr ⟨((indexes.get ⟨x - 1, hj⟩ : Nat) : Int), hpix, ?_⟩
    rw [hfval _ hpix]
    have hcast2 : ((indexes.get ⟨x - 1, hj⟩ : Nat) : Int).toNat =
        indexes.get ⟨x - 1, hj⟩ := by omega
    rw [hcast2, hsurv_getD (x - 1) hj]
    omega
  have hmax : (pixels.map f).foldl max 0 = K := by
    apply le_antisymm
    · exact foldl_max_le _ 0 K (Nat.zero_le K) hout_le
    · rcases Nat.eq_zero_or_pos K with hK | hK
      · omega
      · exact mem_le_foldl_max _ 0 K (hKval K hK le_rfl)
  have hset : (pixels.map f).toFinset.erase 0 = Finset.Icc 1 K := by
    ext x
    simp only [Finset.mem_erase, List.mem_toFinset, Finset.mem_Icc]
    constructor
    · rintro ⟨hx0, hx⟩
      obtain ⟨v, hv, rfl⟩ := List.mem_map.mp hx
      rw [hfval v hv] at hx0 ⊢
      by_cases hmem : v.toNat ∈ indexes
      · obtain ⟨⟨j, hj⟩, hget⟩ := List.mem_iff_get.mp hmem
        rw [← hget, hsurv_getD j hj]
        omega
      · rw [getD_eq_get?_getD, hother v.toNat (htoNat_le v hv) hmem] at hx0
        exact absurd rfl hx0
    · rintro ⟨hx1, hxK⟩
      exact ⟨by omega, hKval x hx1 hxK⟩
  refine ⟨pixels.map f, hrun, by simp, hmax, ?_, ?_⟩
  · rw [hset, Nat.card_Icc]
    omega
  · intro k hk hnot
    rw [getD_map_lt f pixels k 0 hk]
    have hv : pixels.get ⟨k, hk⟩ ∈ pixels := List.get_mem pixels k hk
    rw [hfval _ hv, getD_eq_get?_getD,
      hother _ (htoNat_le _ hv) hnot]
    rfl

/-- Witness for `relabel_conservation`: raster `[1, 2, 3]`, survivors
`[1, 3]`; the relabeled raster `[1, 0, 2]` has maximum 2 = K, two distinct
non-zero labels, and the pixel carrying dropped label 2 is zeroed. -/
theorem relabel_conservation_witness :
    ∃ out, runRelabel [1, 2, 3] [1, 3] = some out ∧
      out.foldl max 0 = 2 ∧ (out.toFinset.erase 0).card = 2 ∧ out.getD 1 0 = 0 := by
  obtain ⟨out, hrun, _, hmax, hcard, hzero⟩ :=
    relabel_conservation [1, 2, 3] [1, 3] (by decide)
      (List.Chain.cons (by norm_num) List.Chain.nil) (by decide) (by decide)
  exact ⟨out, hrun, hmax, hcard, hzero 1 (by decide) (by decide)⟩

lemma trickyLookup_isSome (wm : Bool) (values : List ℚ) (lab : Nat)
    (h : lab ≤ values.length) : ∃ x, trickyLookup wm values lab = some x := by
  rw [trickyLookup]
  by_cases h0 : lab = 0
  · rw [if_pos h0]
    exact ⟨_, rfl⟩
  · rw [if_neg h0, dif_pos (by omega)]
    exact ⟨_, rfl⟩

lemma mapM_trickyLookup (wm : Bool) (values : List ℚ) :
    ∀ srcLabels : List Nat, (∀ lab ∈ srcLabels, lab ≤ values.length) →
      ∃ vs, srcLabels.mapM (trickyLookup wm values) = some vs ∧
        vs.length = srcLabels.length := by
  intro srcLabels
  induction srcLabels with
  | nil => intro _; exact ⟨[], rfl, rfl⟩
  | cons lab rest ih =>
    intro h
    obtain ⟨x, hx⟩ :=
      trickyLookup_isSome wm values lab (h lab (List.mem_cons_self lab rest))
    obtain ⟨vs, hvs, hlen⟩ := ih fun l hl => h l (List.mem_cons_of_mem lab hl)
    refine ⟨x :: vs, ?_, by simp [hlen]⟩
    rw [List.mapM_cons, hx, hvs]
    rfl

lemma labeledPixels_pos_lt (es : List Nat) :
    ∀ (k : Nat) (vs : List FloatVal) (p : Nat × Nat × FloatVal),
      p ∈ labeledPixels k es vs → p.1 < k + es.length ∧ p.1 < k + vs.length := by
  induction es with
  | nil => intro k vs p hp; simp [labeledPixels] at hp
  | cons e est ih =>
    intro k vs p hp
    cases vs with
    | nil => simp [labeledPixels] at hp
    | cons v vst =>
      rw [show labeledPixels k (e :: est) (v :: vst) =
        (k, e, v) :: labeledPixels (k + 1) est vst from rfl] at hp
      rcases List.mem_cons.mp hp with rfl | hp
      · constructor <;> simp
      · obtain ⟨h1, h2⟩ := ih (k + 1) vst p hp
        constructor <;> simp at h1 h2 ⊢ <;> omega

lemma argBestPair_mem (wm : Bool) :
    ∀ (l : List (Nat × FloatVal)) (q : Nat × FloatVal),
      argBestPair wm l = some q → q ∈ l := by
  intro l
  induction l with
  | nil => intro q h; cases h
  | cons p rest ih =>
    intro q h
    rw [argBestPair] at h
    cases hr : argBestPair wm rest with
    | none =>
      rw [hr] at h
      cases h
      exact List.mem_cons_self p rest
    | some q2 =>
      rw [hr] at h
      dsimp only at h
      by_cases hb : betterThanF wm q2.2 p.2 = true
      · rw [if_pos hb] at h
        cases h
        exact List.mem_cons_of_mem p (ih _ hr)
      · rw [if_neg hb] at h
        cases h
        exact List.mem_cons_self p rest

lemma sorted_lt_not_mem_zero (l : List Nat) (hs : List.Sorted (· < ·) l) :
    (0 : Nat) ∉ (match l with | 0 :: rest => rest | l => l) := by
  match l with
  | [] => simp
  | 0 :: rest =>
    intro h0
    have := (List.sorted_cons.mp hs).1 0 h0
    omega
  | (n + 1) :: rest =>
    intro h0
    rcases List.mem_cons.mp h0 with h | h
    · omega
    · have := (List.sorted_cons.mp hs).1 0 h
      omega

lemma sorted_lt_strip_zero (l : List Nat) (hs : List.Sorted (· < ·) l) :
    List.Sorted (· < ·) (match l with | 0 :: rest => rest | l => l) ∧
    ∀ x ∈ (match l with | 0 :: rest => rest | l => l), x ∈ l := by
  match l with
  | [] => exact ⟨List.sorted_nil, by simp⟩
  | 0 :: rest =>
    exact ⟨(List.sorted_cons.mp hs).2, fun x hx => List.mem_cons_of_mem 0 hx⟩
  | (n + 1) :: rest => exact ⟨hs, fun x hx => hx⟩

/-- **C7.** For the Per-Enclosing-Object Extremum strategy on same-shaped
child and enclosing rasters whose child labels stay within the measurement
vector: the strategy succeeds, the result never contains the index 0
(unlabeled pixels carry a sentinel that is stripped even when it wins an
all-background region), it is strictly ascending (hence deduplicated), every
element is a child label that occurs in the child raster, and an enclosing
raster with no labels yields the empty result. -/
theorem perObjectExtremum_properties (wm : Bool) (values : List ℚ)
    (srcLabels enclosing : List Nat)
    (hshape : srcLabels.length = enclosing.length)
    (hlab : ∀ lab ∈ srcLabels, lab ≤ values.length) :
    ∃ r, keepPerObject wm values srcLabels enclosing = some r ∧
      (0 : Nat) ∉ r ∧
      List.Sorted (· < ·) r ∧
      (∀ x ∈ r, x ∈ srcLabels) ∧
      ((∀ e ∈ enclosing, e = 0) → r = []) := by
  by_cases hmax0 : enclosing.foldl max 0 = 0
  · refine ⟨[], ?_, by simp, List.sorted_nil, by simp, fun _ => rfl⟩
    rw [keepPerObject, if_pos hmax0]
  · obtain ⟨vs, hvs, hvslen⟩ := mapM_trickyLookup wm values srcLabels hlab
    have hall : ¬∀ e ∈ enclosing, e = 0 := by
      intro hzero
      exact hmax0 (le_antisymm
        (foldl_max_le enclosing 0 0 le_rfl fun x hx => le_of_eq (hzero x hx))
        (Nat.zero_le _))
    rw [keepPerObject, if_neg hmax0, hvs]
    simp only [Option.map_some']
    set pixels := labeledPixels 0 enclosing vs with hpixels
    set positions := (List.range (enclosing.foldl max 0)).filterMap (fun e0 =>
      (argBestPair wm
        ((pixels.filter fun t => t.2.1 = e0 + 1).map fun t => (t.1, t.2.2))).map
        Prod.fst) with hpositions
    set indexes := positions.map fun pos => srcLabels.getD pos 0 with hindexes
    have hsorted : List.Sorted (· < ·) (indexes.toFinset.sort (fun a b => a ≤ b)) :=
      Finset.sort_sorted_lt _
    refine ⟨_, rfl, sorted_lt_not_mem_zero _ hsorted,
      (sorted_lt_strip_zero _ hsorted).1, ?_, fun h => absurd h hall⟩
    intro x hx
    have hx2 : x ∈ indexes.toFinset.sort (fun a b => a ≤ b) :=
      (sorted_lt_strip_zero _ hsorted).2 x hx
    rw [Finset.mem_sort, List.mem_toFinset] at hx2
    obtain ⟨pos, hpos, rfl⟩ := List.mem_map.mp hx2
    obtain ⟨e0, _, hbest⟩ := List.mem_filterMap.mp hpos
    obtain ⟨q, hq, hq1⟩ := Option.map_eq_some'.mp hbest
    have hqmem := argBestPair_mem wm _ q hq
    obtain ⟨tpl, htpl, htq⟩ := List.mem_map.mp hqmem
    have hlt := (labeledPixels_pos_lt enclosing 0 vs tpl (List.mem_of_mem_filter htpl)).1
    have hposlt : pos < srcLabels.length := by
      rw [hshape]
      rw [← hq1, ← htq]
      simpa using hlt
    rw [getD_eq_get?_getD, List.get?_eq_get hposlt]
    exact List.get_mem srcLabels pos hposlt

/-- Witness for `perObjectExtremum_properties`: two enclosing regions over a
child raster with a background pixel; the result exists, contains no 0, and
is strictly ascending. -/
theorem perObjectExtremum_properties_witness :
    ∃ r, keepPerObject true [(10 : ℚ), 50, 30] [1, 2, 3, 0] [1, 1, 2, 2] = some r ∧
      (0 : Nat) ∉ r ∧ List.Sorted (· < ·) r := by
  obtain ⟨r, heq, h0, hs, _, _⟩ :=
    perObjectExtremum_properties true [(10 : ℚ), 50, 30] [1, 2, 3, 0] [1, 1, 2, 2]
      (by decide) (by decide)
  exact ⟨r, heq, h0, hs⟩
